import Mathlib

/-!
blockchain-demo: mining, validation and fork choice

A shallow embedding of `src/blockchain.go`.

Modelling conventions.

* Go `int` is the 64-bit two's-complement integer.  Fields of type `int` are Lean
  `Int`s and every Go addition on them is followed by `wrapInt`.
* Go `string` is modelled by Lean `String`.  The only place where the code looks inside
  a string is `strings.HasPrefix` against a run of ASCII `"0"`, where prefix on bytes and
  prefix on characters coincide.
* `sha256` followed by `hex.EncodeToString` is a parameter `sha : String → String`.
* `time.Now().String()` is a parameter `now : String`.
* A Go function that may panic or loop for ever returns a `Run`: the unbounded nonce
  search is run with an iteration budget, and `Run.running` says the budget ran out
  before the loop left.
* `strings.Repeat` allocates its whole output before writing it.  The parameter
  `mem : Nat` is the largest byte slice the Go runtime gives to the program in this run;
  a larger request ends the call abnormally (`Run.panic`).  On the 64-bit targets `mem`
  is at most `maxAlloc`.
* The global `BlockChain` is passed explicitly.
* Sessions run concurrently and the declared `mutex` is never locked.  `Server`,
  `stepSession` and `runSchedule` give the program statement by statement: each of the
  reads and the write of the global `BlockChain` in lines 157-166 is a step of its own,
  and a schedule interleaves the steps of the sessions.  `commit`, `handleConn` and
  `submit` are the same statements run with no step of another session in between.
-/

namespace Blockchain

/-! ## Machine integers and results -/

/-- Two's-complement wrap-around of a mathematical integer into Go's 64-bit `int`. -/
def wrapInt (x : Int) : Int :=
  (x + 9223372036854775808) % 18446744073709551616 - 9223372036854775808

/-- Largest value of Go's `int`. -/
def maxInt : Int := 9223372036854775807

/-- Smallest value of Go's `int`. -/
def minInt : Int := -9223372036854775808

/-- Bound `maxAlloc` of the Go runtime on the 64-bit targets (`1 << 48`): no allocation
larger than this is ever granted. -/
def maxAlloc : Nat := 281474976710656

/-- Result of running a piece of Go code: it returned, it panicked, or it was still
looping when the iteration budget was used up. -/
inductive Run (α : Type) where
  | done (a : α) : Run α
  | panic (msg : String) : Run α
  | running : Run α
  deriving DecidableEq, Repr

/-! ## Library functions used by the program -/

/-- Decimal text of an integer, as `strconv.Itoa`: the digits, after a `-` for a negative
number. -/
def Itoa (i : Int) : String :=
  if i < 0 then "-" ++ String.mk (Nat.toDigits 10 (-i).toNat)
  else String.mk (Nat.toDigits 10 i.toNat)

/-- Lower-case hexadecimal text of an integer, as `fmt.Sprintf("%x", i)` on an `int`. -/
def sprintfHex (i : Int) : String :=
  if i < 0 then "-" ++ String.mk (Nat.toDigits 16 (-i).toNat)
  else String.mk (Nat.toDigits 16 i.toNat)

/-- Text `s` written `n` times. -/
def repeatString (s : String) : Nat → String
  | 0 => ""
  | n + 1 => s ++ repeatString s n

/-- Go's `strings.Repeat(s, count)`: panics on a negative count, on an output length that
overflows `int`, and when the output of `len(s) * count` bytes cannot be allocated
(`make([]byte, len(s)*count)`); `mem` is the largest allocation the runtime grants. -/
def Repeat (mem : Nat) (s : String) (count : Int) : Run String :=
  if count < 0 then Run.panic "strings: negative Repeat count"
  else if maxInt < (s.length : Int) * count then
    Run.panic "strings: Repeat count causes overflow"
  else if mem < s.length * count.toNat then
    Run.panic "runtime error: makeslice: len out of range"
  else Run.done (repeatString s count.toNat)

/-- Go's `strings.HasPrefix(s, p)`: `len(s) >= len(p) && s[0:len(p)] == p`. -/
def HasPrefix (s p : String) : Bool :=
  decide (p.length ≤ s.length) && decide (s.data.take p.length = p.data)

/-! ## The program -/

/-- Required number of leading zeros of a block hash (`const difficulty = 3`). -/
def difficulty : Int := 3

/-- One block of the chain (`type Block struct`). -/
structure Block where
  Index : Int
  Timestamp : String
  Data : Int
  Hash : String
  PrevHash : String
  Difficulty : Int
  Nonce : String
  deriving DecidableEq, Repr

/-- The string that `calculateHash` feeds to SHA-256 (the local `record`). -/
def record (block : Block) : String :=
  Itoa block.Index ++ block.Timestamp ++ Itoa block.Data ++ block.PrevHash ++ block.Nonce

/-- Hash of a block (`func calculateHash`), `sha` being hex-encoded SHA-256. -/
def calculateHash (sha : String → String) (block : Block) : String :=
  sha (record block)

/-- Does the hash start with `difficulty` zeros (`func isHashValid`). -/
def isHashValid (mem : Nat) (hash : String) (difficulty : Int) : Run Bool :=
  match Repeat mem "0" difficulty with
  | Run.done p => Run.done (HasPrefix hash p)
  | Run.panic msg => Run.panic msg
  | Run.running => Run.running

/-- The nonce search of `generateBlock` (the `for i := 0; ; i++` loop), entered with
counter `i` and allowed `fuel` iterations. -/
def mineLoop (sha : String → String) (mem : Nat) : Nat → Block → Int → Run Block
  | 0, _, _ => Run.running
  | fuel + 1, newBlock, i =>
    let newBlock := { newBlock with Nonce := sprintfHex i }
    let newHash := calculateHash sha newBlock
    match isHashValid mem newHash newBlock.Difficulty with
    | Run.done false => mineLoop sha mem fuel newBlock (wrapInt (i + 1))
    | Run.done true => Run.done { newBlock with Hash := newHash }
    | Run.panic msg => Run.panic msg
    | Run.running => Run.running

/-- Mine a block on top of `oldBlock` (`func generateBlock`).  The second component is the
returned `error`, which the code always sets to `nil`. -/
def generateBlock (sha : String → String) (mem : Nat) (oldBlock : Block) (Data : Int)
    (now : String) (fuel : Nat) : Run (Block × Option String) :=
  let newBlock : Block :=
    { Index := wrapInt (oldBlock.Index + 1)
      Timestamp := now
      Data := Data
      Hash := ""
      PrevHash := oldBlock.Hash
      Difficulty := difficulty
      Nonce := "" }
  match mineLoop sha mem fuel newBlock 0 with
  | Run.done b => Run.done (b, none)
  | Run.panic msg => Run.panic msg
  | Run.running => Run.running

/-- Does `newBlock` legally extend `oldBlock` (`func isBlockValid`). -/
def isBlockValid (sha : String → String) (newBlock oldBlock : Block) : Bool :=
  if wrapInt (oldBlock.Index + 1) ≠ newBlock.Index then false
  else if oldBlock.Hash ≠ newBlock.PrevHash then false
  else if calculateHash sha newBlock ≠ newBlock.Hash then false
  else true

/-- Keep the longer chain (`func replaceChain`); the result is the new value of the
global `BlockChain`. -/
def replaceChain (BlockChain newBlocks : List Block) : List Block :=
  if newBlocks.length > BlockChain.length then newBlocks else BlockChain

/-- The genesis block built in `main`: `Block{0, t.String(), 0, "", "", difficulty, ""}`. -/
def genesisBlock (t : String) : Block :=
  { Index := 0, Timestamp := t, Data := 0, Hash := "", PrevHash := "",
    Difficulty := difficulty, Nonce := "" }

/-- The expression `BlockChain[len(BlockChain) - 1]`: panics on an empty slice. -/
def lastBlock (BlockChain : List Block) : Run Block :=
  match BlockChain.getLast? with
  | some b => Run.done b
  | none => Run.panic "index out of range [-1]"

/-- The commit of `handleConn` (lines 164-171): validate the candidate against the live
tip, then `replaceChain(append(BlockChain, newBlock))`.  Returns the new `BlockChain` and
whether the valid branch was taken (`false`: "Invalid new block" was written). -/
def commit (sha : String → String) (BlockChain : List Block) (newBlock : Block) :
    Run (List Block × Bool) :=
  match lastBlock BlockChain with
  | Run.done tip =>
    if isBlockValid sha newBlock tip then
      Run.done (replaceChain BlockChain (BlockChain ++ [newBlock]), true)
    else Run.done (BlockChain, false)
  | Run.panic msg => Run.panic msg
  | Run.running => Run.running

/-- One pass of the input loop of `func handleConn`, for a line that `strconv.Atoi` parsed
as the integer `data` (lines 157-171).  `atMine` is the value of `BlockChain` read at line
157, `atCommit` its value from line 164 on; other sessions may have changed it in
between. -/
def handleConn (sha : String → String) (mem : Nat) (atMine atCommit : List Block)
    (data : Int) (now : String) (fuel : Nat) : Run (List Block × Bool) :=
  match lastBlock atMine with
  | Run.done tip =>
    match generateBlock sha mem tip data now fuel with
    | Run.done (newBlock, none) => commit sha atCommit newBlock
    | Run.done (_, some _) => Run.done (atCommit, false)
    | Run.panic msg => Run.panic msg
    | Run.running => Run.running
  | Run.panic msg => Run.panic msg
  | Run.running => Run.running

/-- One submission handled with no other session interfering. -/
def submit (sha : String → String) (mem : Nat) (BlockChain : List Block) (data : Int)
    (now : String) (fuel : Nat) : Run (List Block × Bool) :=
  handleConn sha mem BlockChain BlockChain data now fuel

/-- Commits applied one at a time, in order; returns the final chain and, for each
candidate, whether it was accepted. -/
def commitAll (sha : String → String) :
    List Block → List Block → Run (List Block × List Bool)
  | BlockChain, [] => Run.done (BlockChain, [])
  | BlockChain, b :: rest =>
    match commit sha BlockChain b with
    | Run.done (next, ok) =>
      match commitAll sha next rest with
      | Run.done (final, oks) => Run.done (final, ok :: oks)
      | Run.panic msg => Run.panic msg
      | Run.running => Run.running
    | Run.panic msg => Run.panic msg
    | Run.running => Run.running

/-- Where the input goroutine of one session stands in the loop body of `handleConn`. -/
inductive Session where
  | idle : Session
  | mined (newBlock : Block) : Session
  | validated (newBlock : Block) : Session
  | appended (newBlockChain : List Block) : Session
  deriving DecidableEq, Repr

/-- The running server: the global `BlockChain` and the sessions started by `main`, one
per accepted connection. -/
structure Server where
  BlockChain : List Block
  sessions : List Session
  deriving DecidableEq, Repr

/-- The server when `main` starts accepting: the genesis-only chain made at time `t0`, and
`n` sessions waiting for a line. -/
def startServer (t0 : String) (n : Nat) : Server :=
  { BlockChain := [genesisBlock t0], sessions := List.replicate n Session.idle }

/-- One turn of a schedule: the session that runs its next statement, and the line it
reads and the time and search budget of its mining when that statement is line 157. -/
structure Turn where
  session : Nat
  data : Int
  now : String
  fuel : Nat
  deriving DecidableEq, Repr

/-- The next statement of the input goroutine of session `t.session` in `handleConn`, on the
current global `BlockChain`:

* `idle`: line 157, `generateBlock(BlockChain[len(BlockChain) - 1], data)`;
* `mined`: line 164, `isBlockValid(newBlock, BlockChain[len(BlockChain) - 1])`, going back
  to the head of the loop when it is false;
* `validated`: line 165, `newBlockChain := append(BlockChain, newBlock)`;
* `appended`: line 166, `replaceChain(newBlockChain)`, the only write of `BlockChain`
  (the comparison of line 103 and the assignment of line 104 taken as one step).

No lock is taken anywhere, so statements of other sessions may run between any two of
these. -/
def stepSession (sha : String → String) (mem : Nat) (sv : Server) (t : Turn) : Run Server :=
  match sv.sessions.getD t.session Session.idle with
  | Session.idle =>
    match lastBlock sv.BlockChain with
    | Run.done tip =>
      match generateBlock sha mem tip t.data t.now t.fuel with
      | Run.done (newBlock, none) =>
        Run.done { sv with sessions := sv.sessions.set t.session (Session.mined newBlock) }
      | Run.done (_, some _) => Run.done sv
      | Run.panic msg => Run.panic msg
      | Run.running => Run.running
    | Run.panic msg => Run.panic msg
    | Run.running => Run.running
  | Session.mined newBlock =>
    match lastBlock sv.BlockChain with
    | Run.done tip =>
      if isBlockValid sha newBlock tip then
        Run.done { sv with sessions := sv.sessions.set t.session (Session.validated newBlock) }
      else Run.done { sv with sessions := sv.sessions.set t.session Session.idle }
    | Run.panic msg => Run.panic msg
    | Run.running => Run.running
  | Session.validated newBlock =>
    Run.done { sv with
      sessions := sv.sessions.set t.session (Session.appended (sv.BlockChain ++ [newBlock])) }
  | Session.appended newBlockChain =>
    Run.done
      { BlockChain := replaceChain sv.BlockChain newBlockChain
        sessions := sv.sessions.set t.session Session.idle }

/-- The server run along a schedule, one statement per turn. -/
def runSchedule (sha : String → String) (mem : Nat) : Server → List Turn → Run Server
  | sv, [] => Run.done sv
  | sv, t :: rest =>
    match stepSession sha mem sv t with
    | Run.done next => runSchedule sha mem next rest
    | Run.panic msg => Run.panic msg
    | Run.running => Run.running

/-- The schedule of two sessions racing on one tip: both mine (lines 157), both validate
(line 164), then session 0 appends and replaces (lines 165-166), then session 1 does. -/
def raceSchedule (d0 : Int) (now0 : String) (fuel0 : Nat) (d1 : Int) (now1 : String)
    (fuel1 : Nat) : List Turn :=
  [⟨0, d0, now0, fuel0⟩, ⟨1, d1, now1, fuel1⟩, ⟨0, d0, now0, fuel0⟩, ⟨1, d1, now1, fuel1⟩,
   ⟨0, d0, now0, fuel0⟩, ⟨0, d0, now0, fuel0⟩, ⟨1, d1, now1, fuel1⟩, ⟨1, d1, now1, fuel1⟩]

/-- Chains left by schedules in which every commit (lines 164-166) runs with no statement
of another session in between, as holding `mutex` around it would force: the genesis-only
chain made at time `t0`, and every chain left by `handleConn` on such a chain, its
candidate mined on the tip of such a chain. -/
inductive SerialReachable (sha : String → String) (mem : Nat) (t0 : String) :
    List Block → Prop where
  | init : SerialReachable sha mem t0 [genesisBlock t0]
  | step {atMine atCommit next : List Block} {ok : Bool} (data : Int) (now : String)
      (fuel : Nat) :
      SerialReachable sha mem t0 atMine → SerialReachable sha mem t0 atCommit →
      handleConn sha mem atMine atCommit data now fuel = Run.done (next, ok) →
      SerialReachable sha mem t0 next

/-- Value of a run of decimal digits, most significant digit first. -/
def decimalValue (cs : List Char) : Nat :=
  cs.foldl (fun acc c => acc * 10 + (c.toNat - 48)) 0

/-- Two blocks agree on four of the five hashed fields and differ in the fifth. -/
def differInOneField (B B2 : Block) : Prop :=
  (B.Index ≠ B2.Index ∧ B.Timestamp = B2.Timestamp ∧ B.Data = B2.Data ∧
      B.PrevHash = B2.PrevHash ∧ B.Nonce = B2.Nonce) ∨
  (B.Index = B2.Index ∧ B.Timestamp ≠ B2.Timestamp ∧ B.Data = B2.Data ∧
      B.PrevHash = B2.PrevHash ∧ B.Nonce = B2.Nonce) ∨
  (B.Index = B2.Index ∧ B.Timestamp = B2.Timestamp ∧ B.Data ≠ B2.Data ∧
      B.PrevHash = B2.PrevHash ∧ B.Nonce = B2.Nonce) ∨
  (B.Index = B2.Index ∧ B.Timestamp = B2.Timestamp ∧ B.Data = B2.Data ∧
      B.PrevHash ≠ B2.PrevHash ∧ B.Nonce = B2.Nonce) ∨
  (B.Index = B2.Index ∧ B.Timestamp = B2.Timestamp ∧ B.Data = B2.Data ∧
      B.PrevHash = B2.PrevHash ∧ B.Nonce ≠ B2.Nonce)

/-- The structural invariant between a block `P` and its successor `B` in a chain: index
one more (Go addition), previous hash linked, stored hash equal to the recomputed one and
passing the difficulty test. -/
def Link (sha : String → String) (mem : Nat) (P B : Block) : Prop :=
  B.Index = wrapInt (P.Index + 1) ∧ B.PrevHash = P.Hash ∧ calculateHash sha B = B.Hash ∧
    isHashValid mem B.Hash difficulty = Run.done true

/-- A stand-in hash for evaluating the definitions: the record itself, after three zeros
when the record ends in `3`. -/
def toyHash (s : String) : String :=
  if s.data.getLast? = some '3' then "000" ++ s else s


/-- The block that `generateBlock` mines with `toyHash` on the genesis block of time `t`,
for payload 42 at time `u`. -/
def minedBlock : Block :=
  { Index := 1, Timestamp := "u", Data := 42, Hash := "0001u423", PrevHash := "",
    Difficulty := 3, Nonce := "3" }

/-- Another block mined with `toyHash` on the same genesis block, for payload 7 at time
`v`. -/
def rivalBlock : Block :=
  { Index := 1, Timestamp := "v", Data := 7, Hash := "0001v73", PrevHash := "",
    Difficulty := 3, Nonce := "3" }

/-! ## Machine integers -/

theorem wrapInt_of_inRange (x : Int) (h1 : minInt ≤ x) (h2 : x ≤ maxInt) : wrapInt x = x := by
  unfold wrapInt
  unfold minInt at h1
  unfold maxInt at h2
  omega

theorem wrapInt_succ_wrapInt (x : Int) : wrapInt (wrapInt x + 1) = wrapInt (x + 1) := by
  unfold wrapInt
  omega

theorem wrapInt_succ_ne (x : Int) : wrapInt (wrapInt x + 1) ≠ wrapInt x := by
  unfold wrapInt
  omega

/-! ## Decimal text -/

theorem digitChar_toNat : ∀ d : Nat, d < 10 → (Nat.digitChar d).toNat - 48 = d := by decide

theorem digitChar_ne_minus : ∀ d : Nat, d < 10 → Nat.digitChar d ≠ '-' := by decide

theorem foldl_toDigitsCore :
    ∀ (fuel n : Nat) (ds : List Char), n < fuel →
      (Nat.toDigitsCore 10 fuel n ds).foldl (fun acc c => acc * 10 + (c.toNat - 48)) 0 =
        ds.foldl (fun acc c => acc * 10 + (c.toNat - 48)) n := by
  intro fuel
  induction fuel with
  | zero => intro n ds h; omega
  | succ f ih =>
    intro n ds h
    have hd := digitChar_toNat (n % 10) (Nat.mod_lt _ (by decide))
    simp only [Nat.toDigitsCore]
    split
    · simp only [List.foldl_cons, hd]
      congr 1
      omega
    · rw [ih (n / 10) _ (by omega)]
      simp only [List.foldl_cons, hd]
      congr 1
      omega

/-- Reading back the decimal digits of `n` gives `n`. -/
theorem decimalValue_toDigits (n : Nat) : decimalValue (Nat.toDigits 10 n) = n := by
  unfold decimalValue Nat.toDigits
  rw [foldl_toDigitsCore _ _ _ (Nat.lt_succ_self n)]
  rfl

theorem toDigits_injective (m n : Nat) (h : Nat.toDigits 10 m = Nat.toDigits 10 n) : m = n := by
  have := congrArg decimalValue h
  simpa [decimalValue_toDigits] using this

theorem minus_not_mem_toDigitsCore :
    ∀ (fuel n : Nat) (ds : List Char), '-' ∉ ds → '-' ∉ Nat.toDigitsCore 10 fuel n ds := by
  intro fuel
  induction fuel with
  | zero => intro n ds h; simpa [Nat.toDigitsCore] using h
  | succ f ih =>
    intro n ds h
    have hd := digitChar_ne_minus (n % 10) (Nat.mod_lt _ (by decide))
    have hc : '-' ∉ Nat.digitChar (n % 10) :: ds := by
      simp only [List.mem_cons, not_or]
      exact ⟨fun e => hd e.symm, h⟩
    simp only [Nat.toDigitsCore]
    split
    · exact hc
    · exact ih _ _ hc

theorem minus_not_mem_toDigits (n : Nat) : '-' ∉ Nat.toDigits 10 n :=
  minus_not_mem_toDigitsCore _ _ _ (by simp)

theorem Itoa_data (i : Int) :
    (Itoa i).data =
      if i < 0 then '-' :: Nat.toDigits 10 (-i).toNat else Nat.toDigits 10 i.toNat := by
  unfold Itoa
  split <;> simp [String.data_append]

/-- Different integers have different decimal texts. -/
theorem Itoa_injective (i j : Int) (h : Itoa i = Itoa j) : i = j := by
  have hd := congrArg String.data h
  rw [Itoa_data, Itoa_data] at hd
  by_cases hi : i < 0 <;> by_cases hj : j < 0
  · simp only [hi, hj, if_true, List.cons.injEq, true_and] at hd
    have := toDigits_injective _ _ hd
    omega
  · simp only [hi, hj, if_true, if_false] at hd
    exact absurd (hd ▸ List.mem_cons_self _ _) (minus_not_mem_toDigits _)
  · simp only [hi, hj, if_true, if_false] at hd
    exact absurd (hd.symm ▸ List.mem_cons_self _ _) (minus_not_mem_toDigits _)
  · simp only [hi, hj, if_false] at hd
    have := toDigits_injective _ _ hd
    omega

theorem record_data (b : Block) :
    (record b).data =
      (Itoa b.Index).data ++ b.Timestamp.data ++ (Itoa b.Data).data ++ b.PrevHash.data ++
        b.Nonce.data := by
  simp [record, String.data_append]

/-- Changing one hashed field changes the record. -/
theorem record_ne_of_differInOneField (B B2 : Block) (h : differInOneField B B2) :
    record B ≠ record B2 := by
  intro e
  have hd := congrArg String.data e
  rw [record_data, record_data] at hd
  rcases h with ⟨h1, h2, h3, h4, h5⟩ | ⟨h1, h2, h3, h4, h5⟩ | ⟨h1, h2, h3, h4, h5⟩ |
    ⟨h1, h2, h3, h4, h5⟩ | ⟨h1, h2, h3, h4, h5⟩
  · rw [h2, h3, h4, h5] at hd
    simp only [List.append_assoc, List.append_left_inj] at hd
    exact h1 (Itoa_injective _ _ (String.ext hd))
  · rw [h1, h3, h4, h5] at hd
    simp only [List.append_assoc, List.append_left_inj, List.append_right_inj] at hd
    exact h2 (String.ext hd)
  · rw [h1, h2, h4, h5] at hd
    simp only [List.append_assoc, List.append_left_inj, List.append_right_inj] at hd
    exact h3 (Itoa_injective _ _ (String.ext hd))
  · rw [h1, h2, h3, h5] at hd
    simp only [List.append_assoc, List.append_left_inj, List.append_right_inj] at hd
    exact h4 (String.ext hd)
  · rw [h1, h2, h3, h4] at hd
    simp only [List.append_assoc, List.append_right_inj] at hd
    exact h5 (String.ext hd)

/-! ## The difficulty test -/

theorem repeatString_zero_data (n : Nat) :
    (repeatString "0" n).data = List.replicate n '0' := by
  induction n with
  | zero => rfl
  | succ k ih =>
    simp only [repeatString, String.data_append, ih, List.replicate_succ]
    rfl

theorem HasPrefix_zeros (hash : String) (n : Nat) :
    HasPrefix hash (repeatString "0" n) = true ↔
      (n ≤ hash.length ∧ ∀ i : Nat, i < n → hash.data[i]? = some '0') := by
  have hlen : (repeatString "0" n).length = n := by
    simp [String.length, repeatString_zero_data]
  unfold HasPrefix
  rw [hlen, repeatString_zero_data]
  simp only [Bool.and_eq_true, decide_eq_true_eq]
  constructor
  · rintro ⟨h1, h2⟩
    refine ⟨h1, fun i hi => ?_⟩
    have := congrArg (fun l => l[i]?) h2
    simp only [List.getElem?_take, hi, if_true] at this
    rw [this]
    simp [List.getElem?_replicate, hi]
  · rintro ⟨h1, h2⟩
    refine ⟨h1, ?_⟩
    apply List.ext_getElem?
    intro i
    by_cases hi : i < n
    · simp [List.getElem?_take, hi, h2 i hi, List.getElem?_replicate]
    · simp [List.getElem?_take, hi, List.getElem?_replicate]

/-- The difficulty test returns exactly when the run of zeros can be allocated, and then
it is the prefix test. -/
theorem isHashValid_eq (mem : Nat) (hash : String) (d : Int) (hd : 0 ≤ d) (hint : d ≤ maxInt)
    (hmem : d ≤ (mem : Int)) :
    isHashValid mem hash d = Run.done (HasPrefix hash (repeatString "0" d.toNat)) := by
  have h1 : ¬ d < 0 := Int.not_lt.mpr hd
  have h2 : ¬ maxInt < (("0".length : Nat) : Int) * d := by
    have : ("0".length : Nat) = 1 := rfl
    rw [this]
    omega
  have h3 : ¬ mem < "0".length * d.toNat := by
    have : ("0".length : Nat) = 1 := rfl
    rw [this]
    omega
  simp only [isHashValid, Repeat, h1, h2, h3, if_false]

/-- The difficulty test panics when the difficulty is negative or the run of zeros cannot
be allocated. -/
theorem isHashValid_panic (mem : Nat) (hash : String) (d : Int) (h : d < 0 ∨ (mem : Int) < d) :
    ∃ msg, isHashValid mem hash d = Run.panic msg := by
  simp only [isHashValid, Repeat]
  by_cases h1 : d < 0
  · exact ⟨"strings: negative Repeat count", by simp only [h1, if_true]⟩
  · by_cases h2 : maxInt < (("0".length : Nat) : Int) * d
    · exact ⟨"strings: Repeat count causes overflow", by simp only [h1, h2, if_true, if_false]⟩
    · have h3 : mem < "0".length * d.toNat := by
        have : ("0".length : Nat) = 1 := rfl
        rw [this]
        omega
      exact ⟨"runtime error: makeslice: len out of range",
        by simp only [h1, h2, h3, if_true, if_false]⟩

/-- A hash that passes the test at difficulty 3 starts with `000`. -/
theorem HasPrefix_of_isHashValid (mem : Nat) (hash : String)
    (h : isHashValid mem hash difficulty = Run.done true) : HasPrefix hash "000" = true := by
  by_cases hm : (difficulty : Int) ≤ (mem : Int)
  · rw [isHashValid_eq mem hash difficulty (by decide) (by decide) hm] at h
    injection h
  · obtain ⟨msg, hp⟩ := isHashValid_panic mem hash difficulty (Or.inr (by omega))
    rw [hp] at h
    cases h

/-! ## The nonce search -/

/-- The stored hash is not part of the hashed record. -/
theorem calculateHash_with_Hash (sha : String → String) (b : Block) (h : String) :
    calculateHash sha { b with Hash := h } = calculateHash sha b := rfl

/-- What the nonce search returns: the block it was given, with some nonce and with the
hash of the result installed, that hash passing `isHashValid`. -/
theorem mineLoop_done (sha : String → String) (mem : Nat) :
    ∀ (fuel : Nat) (nb : Block) (i : Int) (B : Block), mineLoop sha mem fuel nb i = Run.done B →
      calculateHash sha B = B.Hash ∧ isHashValid mem B.Hash B.Difficulty = Run.done true ∧
      B.Index = nb.Index ∧ B.Timestamp = nb.Timestamp ∧ B.Data = nb.Data ∧
      B.PrevHash = nb.PrevHash ∧ B.Difficulty = nb.Difficulty := by
  intro fuel
  induction fuel with
  | zero => intro nb i B h; simp [mineLoop] at h
  | succ n ih =>
    intro nb i B h
    simp only [mineLoop] at h
    split at h
    · have := ih _ _ _ h
      simpa using this
    · rename_i hv
      injection h with h
      subst h
      exact ⟨rfl, hv, rfl, rfl, rfl, rfl, rfl⟩
    · simp at h
    · simp at h

/-- More iterations do not change a search that has already returned. -/
theorem mineLoop_fuel_mono (sha : String → String) (mem : Nat) :
    ∀ (fuel extra : Nat) (nb : Block) (i : Int) (B : Block),
      mineLoop sha mem fuel nb i = Run.done B →
        mineLoop sha mem (fuel + extra) nb i = Run.done B := by
  intro fuel
  induction fuel with
  | zero => intro extra nb i B h; simp [mineLoop] at h
  | succ n ih =>
    intro extra nb i B h
    rw [Nat.add_right_comm]
    simp only [mineLoop] at h ⊢
    split at h
    · exact ih _ _ _ _ h
    · exact h
    · simp at h
    · simp at h

/-- The search returns at the first counter value whose hash passes: when the values
`s, s+1, ..., s+k-1` fail and `s+k` passes, `k+1` iterations are enough. -/
theorem mineLoop_found (sha : String → String) (mem : Nat) :
    ∀ (k : Nat) (s : Int) (nb : Block),
      (∀ j : Nat, j < k →
        isHashValid mem (calculateHash sha { nb with Nonce := sprintfHex (wrapInt (s + j)) })
          nb.Difficulty = Run.done false) →
      isHashValid mem (calculateHash sha { nb with Nonce := sprintfHex (wrapInt (s + k)) })
          nb.Difficulty = Run.done true →
      mineLoop sha mem (k + 1) nb (wrapInt s) =
        Run.done { nb with
          Nonce := sprintfHex (wrapInt (s + k))
          Hash := calculateHash sha { nb with Nonce := sprintfHex (wrapInt (s + k)) } } := by
  intro k
  induction k with
  | zero =>
    intro s nb _ hk
    simp only [Nat.cast_zero, add_zero] at hk
    simp only [mineLoop, Nat.cast_zero, add_zero]
    rw [hk]
  | succ n ih =>
    intro s nb hlt hk
    have h0 := hlt 0 (Nat.succ_pos n)
    simp only [Nat.cast_zero, add_zero] at h0
    rw [mineLoop]
    simp only
    rw [h0]
    simp only
    rw [wrapInt_succ_wrapInt]
    have e : ∀ j : Nat, s + 1 + (j : Int) = s + ((j + 1 : Nat) : Int) := by
      intro j; push_cast; ring
    have := ih (s + 1) { nb with Nonce := sprintfHex (wrapInt s) }
      (by
        intro j hj
        have := hlt (j + 1) (Nat.succ_lt_succ hj)
        rw [e j]
        exact this)
      (by rw [e n]; exact hk)
    rw [this, e n]

/-- The search of `generateBlock` terminates when some counter value passes: if the
`k`-th value tried is the first whose hash has the required zeros, `generateBlock` returns
with `k + 1` iterations (and with any larger budget). -/
theorem generateBlock_terminates (sha : String → String) (mem : Nat) (oldBlock : Block)
    (Data : Int)
    (now : String) (k : Nat)
    (hfail : ∀ j : Nat, j < k →
      isHashValid mem (sha (Itoa (wrapInt (oldBlock.Index + 1)) ++ now ++ Itoa Data ++
        oldBlock.Hash ++ sprintfHex (wrapInt j))) difficulty = Run.done false)
    (hok : isHashValid mem (sha (Itoa (wrapInt (oldBlock.Index + 1)) ++ now ++ Itoa Data ++
        oldBlock.Hash ++ sprintfHex (wrapInt k))) difficulty = Run.done true) (extra : Nat) :
    ∃ B, generateBlock sha mem oldBlock Data now (k + 1 + extra) = Run.done (B, none) ∧
      B.Nonce = sprintfHex (wrapInt k) := by
  have h := mineLoop_found sha mem k 0
    { Index := wrapInt (oldBlock.Index + 1), Timestamp := now, Data := Data, Hash := "",
      PrevHash := oldBlock.Hash, Difficulty := difficulty, Nonce := "" }
    (by intro j hj; simpa [calculateHash, record] using hfail j hj)
    (by simpa [calculateHash, record] using hok)
  simp only [zero_add] at h
  have h2 := mineLoop_fuel_mono sha mem (k + 1) extra _ _ _ h
  have w0 : wrapInt 0 = 0 := by decide
  rw [w0] at h2
  simp only [generateBlock]
  rw [h2]
  exact ⟨_, rfl, by simp⟩

/-- What `generateBlock` returns, when it returns. -/
theorem generateBlock_done (sha : String → String) (mem : Nat) (oldBlock : Block) (Data : Int)
    (now : String) (fuel : Nat) (B : Block) (err : Option String)
    (h : generateBlock sha mem oldBlock Data now fuel = Run.done (B, err)) :
    err = none ∧ calculateHash sha B = B.Hash ∧
      isHashValid mem B.Hash B.Difficulty = Run.done true ∧
      B.Index = wrapInt (oldBlock.Index + 1) ∧ B.Timestamp = now ∧ B.Data = Data ∧
      B.PrevHash = oldBlock.Hash ∧ B.Difficulty = difficulty := by
  simp only [generateBlock] at h
  split at h
  · rename_i b hb
    injection h with h
    injection h with h1 h2
    subst h1
    have := mineLoop_done sha mem _ _ _ _ hb
    simpa [h2.symm] using this
  · simp at h
  · simp at h

/-! ## Commit and submission -/

theorem lastBlock_done_iff (chain : List Block) (T : Block) :
    lastBlock chain = Run.done T ↔ chain.getLast? = some T := by
  unfold lastBlock
  split
  · rename_i b hb
    rw [hb]
    simp
  · rename_i hb
    rw [hb]
    simp

theorem lastBlock_append_singleton (chain : List Block) (b : Block) :
    lastBlock (chain ++ [b]) = Run.done b := by
  rw [lastBlock_done_iff]
  exact List.getLast?_concat chain

theorem ne_nil_of_lastBlock (chain : List Block) (T : Block) (h : lastBlock chain = Run.done T) :
    chain ≠ [] := by
  intro e
  subst e
  simp [lastBlock] at h

theorem replaceChain_append_singleton (chain : List Block) (b : Block) :
    replaceChain chain (chain ++ [b]) = chain ++ [b] := by
  simp [replaceChain]

/-- The commit on a chain with tip `T`: the candidate is appended when `isBlockValid`
accepts it on top of `T`, and the chain stays as it is otherwise. -/
theorem commit_eq (sha : String → String) (chain : List Block) (T b : Block)
    (hT : lastBlock chain = Run.done T) :
    commit sha chain b =
      Run.done (if isBlockValid sha b T = true then chain ++ [b] else chain,
        isBlockValid sha b T) := by
  unfold commit
  rw [hT]
  by_cases hv : isBlockValid sha b T = true
  · simp [hv, replaceChain_append_singleton]
  · simp [hv]

theorem commit_done (sha : String → String) (chain next : List Block) (b : Block) (ok : Bool)
    (h : commit sha chain b = Run.done (next, ok)) :
    ∃ T, lastBlock chain = Run.done T ∧ ok = isBlockValid sha b T ∧
      next = if isBlockValid sha b T = true then chain ++ [b] else chain := by
  cases hT : lastBlock chain with
  | done T =>
    rw [commit_eq sha chain T b hT] at h
    injection h with h
    injection h with h1 h2
    exact ⟨T, rfl, h2.symm, h1.symm⟩
  | panic msg => simp [commit, hT] at h
  | running => simp [commit, hT] at h

theorem handleConn_done (sha : String → String) (mem : Nat) (atMine atCommit next : List Block)
    (data : Int) (now : String) (fuel : Nat) (ok : Bool)
    (h : handleConn sha mem atMine atCommit data now fuel = Run.done (next, ok)) :
    ∃ T nb, lastBlock atMine = Run.done T ∧
      generateBlock sha mem T data now fuel = Run.done (nb, none) ∧
      commit sha atCommit nb = Run.done (next, ok) := by
  unfold handleConn at h
  cases hT : lastBlock atMine with
  | done T =>
    rw [hT] at h
    simp only at h
    cases hg : generateBlock sha mem T data now fuel with
    | done r =>
      obtain ⟨nb, err⟩ := r
      have herr := (generateBlock_done sha mem T data now fuel nb err hg).1
      subst herr
      rw [hg] at h
      exact ⟨T, nb, rfl, hg, h⟩
    | panic msg => rw [hg] at h; simp at h
    | running => rw [hg] at h; simp at h
  | panic msg => rw [hT] at h; simp at h
  | running => rw [hT] at h; simp at h

/-- A block mined on top of `T` is valid on top of `T`. -/
theorem isBlockValid_of_generateBlock (sha : String → String) (mem : Nat) (T : Block) (d : Int)
    (now : String) (fuel : Nat) (B : Block) (err : Option String)
    (h : generateBlock sha mem T d now fuel = Run.done (B, err)) : isBlockValid sha B T = true := by
  obtain ⟨_, h1, _, h3, _, _, h6, _⟩ := generateBlock_done sha mem T d now fuel B err h
  simp [isBlockValid, h1, h3, h6]

/-- A block mined on top of `T` is not valid on top of another block mined on top of `T`:
both have the same index. -/
theorem isBlockValid_stale (sha : String → String) (mem : Nat) (T : Block) (d d2 : Int)
    (now now2 : String) (fuel fuel2 : Nat) (B C : Block) (err err2 : Option String)
    (hB : generateBlock sha mem T d now fuel = Run.done (B, err))
    (hC : generateBlock sha mem T d2 now2 fuel2 = Run.done (C, err2)) :
    isBlockValid sha C B = false := by
  obtain ⟨_, _, _, h3, _⟩ := generateBlock_done sha mem T d now fuel B err hB
  obtain ⟨_, _, _, k3, _⟩ := generateBlock_done sha mem T d2 now2 fuel2 C err2 hC
  have hne : wrapInt (B.Index + 1) ≠ C.Index := by
    rw [h3, k3, wrapInt_succ_wrapInt]
    have := wrapInt_succ_ne (T.Index + 1)
    rw [wrapInt_succ_wrapInt] at this
    exact this
  simp [isBlockValid, hne]

theorem commitAll_cons (sha : String → String) (chain : List Block) (T b : Block)
    (rest : List Block) (hT : lastBlock chain = Run.done T) :
    commitAll sha chain (b :: rest) =
      match commitAll sha (if isBlockValid sha b T = true then chain ++ [b] else chain) rest with
      | Run.done (final, oks) => Run.done (final, isBlockValid sha b T :: oks)
      | Run.panic msg => Run.panic msg
      | Run.running => Run.running := by
  rw [commitAll, commit_eq sha chain T b hT]

theorem isBlockValid_eq_true_iff (sha : String → String) (newBlock oldBlock : Block) :
    isBlockValid sha newBlock oldBlock = true ↔
      (newBlock.Index = wrapInt (oldBlock.Index + 1) ∧ newBlock.PrevHash = oldBlock.Hash ∧
        calculateHash sha newBlock = newBlock.Hash) := by
  unfold isBlockValid
  constructor
  · intro h
    by_cases h1 : wrapInt (oldBlock.Index + 1) = newBlock.Index
    · by_cases h2 : oldBlock.Hash = newBlock.PrevHash
      · by_cases h3 : calculateHash sha newBlock = newBlock.Hash
        · exact ⟨h1.symm, h2.symm, h3⟩
        · simp [h1, h2, h3] at h
      · simp [h1, h2] at h
    · simp [h1] at h
  · rintro ⟨h1, h2, h3⟩
    simp [h1, h2, h3]

/-! ## Serialized commits -/

/-- Every chain left by serialized commits starts with the genesis block and has each
block linked to the one before it. -/
theorem serialReachable_inv (sha : String → String) (mem : Nat) (t0 : String) (chain : List Block)
    (hr : SerialReachable sha mem t0 chain) :
    chain.head? = some (genesisBlock t0) ∧ List.Chain' (Link sha mem) chain := by
  induction hr with
  | init => exact ⟨rfl, List.chain'_singleton _⟩
  | @step atMine atCommit next ok data now fuel _ _ hd _ ih =>
    obtain ⟨T, nb, _, hg, hc⟩ :=
      handleConn_done sha mem atMine atCommit next data now fuel ok hd
    obtain ⟨T2, hT2, _, hnext⟩ := commit_done sha atCommit next nb ok hc
    by_cases hv : isBlockValid sha nb T2 = true
    · rw [if_pos hv] at hnext
      subst hnext
      obtain ⟨_, g1, g2, _, _, _, _, g7⟩ :=
        generateBlock_done sha mem T data now fuel nb none hg
      obtain ⟨v1, v2, v3⟩ := (isBlockValid_eq_true_iff sha nb T2).mp hv
      have hne := ne_nil_of_lastBlock atCommit T2 hT2
      refine ⟨?_, ?_⟩
      · rw [List.head?_append_of_ne_nil _ hne]
        exact ih.1
      · refine List.Chain'.append ih.2 (List.chain'_singleton nb) ?_
        intro x hx y hy
        rw [(lastBlock_done_iff atCommit T2).mp hT2] at hx
        simp only [Option.mem_def, Option.some.injEq] at hx
        simp only [List.head?_cons, Option.mem_def, Option.some.injEq] at hy
        subst hx hy
        exact ⟨v1, v2, v3, g7 ▸ g2⟩
    · rw [if_neg hv] at hnext
      subst hnext
      exact ih

theorem chain_index (sha : String → String) (mem : Nat) (t0 : String) (chain : List Block)
    (h0 : chain.head? = some (genesisBlock t0)) (hc : List.Chain' (Link sha mem) chain) :
    ∀ (i : Nat) (h : i < chain.length), chain[i].Index = wrapInt i := by
  intro i
  induction i with
  | zero =>
    intro h
    cases chain with
    | nil => simp at h
    | cons a l =>
      simp only [List.head?_cons, Option.some.injEq] at h0
      subst h0
      rfl
  | succ k ih =>
    intro h
    have hl := List.chain'_iff_get.mp hc k (by omega)
    simp only [List.get_eq_getElem] at hl
    rw [hl.1, ih (by omega)]
    push_cast
    exact wrapInt_succ_wrapInt k

/-- With every commit serialized, the structural invariant holds: in a chain of
`SerialReachable` (its length being a Go `int`) the block at a position `i > 0` has index
`i`, the hash of the block before it as `PrevHash`, a stored hash equal to the recomputed
one and starting with `000`, and it passes `isBlockValid` on the block before it. -/
theorem serialReachable_chain_valid (sha : String → String) (mem : Nat) (t0 : String)
    (chain : List Block) (hr : SerialReachable sha mem t0 chain)
    (hlen : (chain.length : Int) ≤ maxInt) (i : Nat) (hi : 0 < i) (h : i < chain.length) :
    chain[i].Index = (i : Int) ∧ chain[i].PrevHash = chain[i - 1].Hash ∧
      calculateHash sha chain[i] = chain[i].Hash ∧
      isHashValid mem chain[i].Hash difficulty = Run.done true ∧
      HasPrefix chain[i].Hash "000" = true ∧
      isBlockValid sha chain[i] chain[i - 1] = true := by
  obtain ⟨h0, hc⟩ := serialReachable_inv sha mem t0 chain hr
  obtain ⟨k, rfl⟩ : ∃ k, i = k + 1 := ⟨i - 1, by omega⟩
  have hl := List.chain'_iff_get.mp hc k (by omega)
  simp only [List.get_eq_getElem] at hl
  simp only [Nat.add_sub_cancel]
  obtain ⟨l1, l2, l3, l4⟩ := hl
  have hidx : chain[k + 1].Index = ((k + 1 : Nat) : Int) := by
    rw [chain_index sha mem t0 chain h0 hc (k + 1) h]
    apply wrapInt_of_inRange
    · unfold minInt; omega
    · omega
  exact ⟨hidx, l2, l3, l4, HasPrefix_of_isHashValid mem _ l4,
    (isBlockValid_eq_true_iff sha _ _).mpr ⟨l1, l2, l3⟩⟩

/-! ## Interleaved sessions -/

theorem getD_set_self (l : List Session) (k : Nat) (x : Session) (hk : k < l.length) :
    (l.set k x).getD k Session.idle = x := by
  simp [List.getD_eq_getElem?_getD, List.getElem?_set, hk]

theorem lt_length_of_getD (l : List Session) (k : Nat) (x : Session) (hx : x ≠ Session.idle)
    (h : l.getD k Session.idle = x) : k < l.length := by
  by_contra hge
  rw [List.getD_eq_default _ _ (Nat.le_of_not_lt hge)] at h
  exact hx h.symm

/-- Line 164 run by a session that has mined `nb`. -/
theorem stepSession_mined (sha : String → String) (mem : Nat) (sv : Server) (t : Turn)
    (nb T : Block) (hs : sv.sessions.getD t.session Session.idle = Session.mined nb)
    (hT : lastBlock sv.BlockChain = Run.done T) :
    stepSession sha mem sv t =
      Run.done { sv with
        sessions := sv.sessions.set t.session
          (if isBlockValid sha nb T = true then Session.validated nb else Session.idle) } := by
  unfold stepSession
  rw [hs]
  simp only
  rw [hT]
  by_cases hv : isBlockValid sha nb T = true
  · simp only [hv, if_true]
  · simp only [hv, if_false, Bool.false_eq_true]

/-- Line 165 run by a session that has passed line 164 with `nb`. -/
theorem stepSession_validated (sha : String → String) (mem : Nat) (sv : Server) (t : Turn)
    (nb : Block) (hs : sv.sessions.getD t.session Session.idle = Session.validated nb) :
    stepSession sha mem sv t =
      Run.done { sv with
        sessions := sv.sessions.set t.session (Session.appended (sv.BlockChain ++ [nb])) } := by
  unfold stepSession
  rw [hs]

/-- Line 166 run by a session that holds the extended chain `nbc`. -/
theorem stepSession_appended (sha : String → String) (mem : Nat) (sv : Server) (t : Turn)
    (nbc : List Block) (hs : sv.sessions.getD t.session Session.idle = Session.appended nbc) :
    stepSession sha mem sv t =
      Run.done
        { BlockChain := replaceChain sv.BlockChain nbc
          sessions := sv.sessions.set t.session Session.idle } := by
  unfold stepSession
  rw [hs]

/-- The statements of a commit run by one session with no statement of another session in
between are `commit`: line 164 alone when the candidate is rejected, lines 164, 165 and
166 when it is accepted. -/
theorem runSchedule_commit (sha : String → String) (mem : Nat) (sv : Server) (t : Turn)
    (nb : Block) (next : List Block) (ok : Bool)
    (hs : sv.sessions.getD t.session Session.idle = Session.mined nb)
    (hc : commit sha sv.BlockChain nb = Run.done (next, ok)) :
    runSchedule sha mem sv (if ok = true then [t, t, t] else [t]) =
      Run.done { BlockChain := next, sessions := sv.sessions.set t.session Session.idle } := by
  obtain ⟨T, hT, hok, hnext⟩ := commit_done sha sv.BlockChain next nb ok hc
  have hk := lt_length_of_getD _ _ _ (by simp) hs
  by_cases hv : isBlockValid sha nb T = true
  · rw [if_pos hv] at hnext
    rw [hv] at hok
    subst hnext hok
    simp only [if_true, runSchedule]
    rw [stepSession_mined sha mem sv t nb T hs hT]
    simp only [hv, if_true]
    rw [stepSession_validated sha mem _ t nb (getD_set_self _ _ _ hk)]
    simp only
    rw [stepSession_appended sha mem _ t (sv.BlockChain ++ [nb])
      (getD_set_self _ _ _ (by simpa using hk))]
    simp only [List.set_set, replaceChain_append_singleton]
  · rw [if_neg hv] at hnext
    simp only [Bool.not_eq_true] at hv
    rw [hv] at hok
    subst hnext hok
    simp only [Bool.false_eq_true, if_false, runSchedule]
    rw [stepSession_mined sha mem sv t nb T hs hT]
    simp only [hv, Bool.false_eq_true, if_false]

/-! ## Claims -/

/-- C1: for every predecessor and payload, whenever the nonce search of `generateBlock`
terminates, the returned block `B` has `calculateHash B = B.Hash` and
`isHashValid (calculateHash B) B.Difficulty` holds, whatever function SHA-256 is and
whatever memory the runtime has. -/
theorem generateBlock_hash_valid (sha : String → String) (mem : Nat) (oldBlock : Block)
    (Data : Int)
    (now : String) (fuel : Nat) (B : Block) (err : Option String)
    (h : generateBlock sha mem oldBlock Data now fuel = Run.done (B, err)) :
    calculateHash sha B = B.Hash ∧
      isHashValid mem (calculateHash sha B) B.Difficulty = Run.done true := by
  obtain ⟨_, h1, h2, _⟩ := generateBlock_done sha mem oldBlock Data now fuel B err h
  exact ⟨h1, by rw [h1]; exact h2⟩

/-- Witness of C1: with the stand-in hash the search on top of the genesis block returns at
counter 3, and the returned block satisfies both properties. -/
theorem generateBlock_hash_valid_witness :
    generateBlock toyHash maxAlloc (genesisBlock "t") 42 "u" 10 =
        Run.done (⟨1, "u", 42, "0001u423", "", 3, "3"⟩, none) ∧
      calculateHash toyHash ⟨1, "u", 42, "0001u423", "", 3, "3"⟩ = "0001u423" ∧
      isHashValid maxAlloc (calculateHash toyHash ⟨1, "u", 42, "0001u423", "", 3, "3"⟩) 3 =
        Run.done true :=
  ⟨by decide,
   generateBlock_hash_valid toyHash maxAlloc (genesisBlock "t") 42 "u" 10
     ⟨1, "u", 42, "0001u423", "", 3, "3"⟩ none (by decide)⟩

/-- C2: `isBlockValid newBlock oldBlock` is false exactly when the index is not the
predecessor index plus one (Go addition), or the previous hash is not the predecessor hash,
or the recomputed hash is not the stored hash; otherwise it is true.  It is a total
function. -/
theorem isBlockValid_false_iff (sha : String → String) (newBlock oldBlock : Block) :
    (isBlockValid sha newBlock oldBlock = false ↔
      (newBlock.Index ≠ wrapInt (oldBlock.Index + 1) ∨ newBlock.PrevHash ≠ oldBlock.Hash ∨
        calculateHash sha newBlock ≠ newBlock.Hash)) ∧
    (isBlockValid sha newBlock oldBlock = true ↔
      (newBlock.Index = wrapInt (oldBlock.Index + 1) ∧ newBlock.PrevHash = oldBlock.Hash ∧
        calculateHash sha newBlock = newBlock.Hash)) := by
  unfold isBlockValid
  by_cases h1 : wrapInt (oldBlock.Index + 1) = newBlock.Index
  · by_cases h2 : oldBlock.Hash = newBlock.PrevHash
    · by_cases h3 : calculateHash sha newBlock = newBlock.Hash
      · simp [h1, h2, h3]
      · simp [h1, h2, h3]
    · have h2b : ¬ newBlock.PrevHash = oldBlock.Hash := fun e => h2 e.symm
      simp [h1, h2, h2b]
  · have h1b : ¬ newBlock.Index = wrapInt (oldBlock.Index + 1) := fun e => h1 e.symm
    simp [h1, h1b]

/-- C3: after `replaceChain newBlocks` the live chain is `newBlocks` when that is strictly
longer, and the previous live chain otherwise. -/
theorem replaceChain_spec (BlockChain newBlocks : List Block) :
    (newBlocks.length > BlockChain.length → replaceChain BlockChain newBlocks = newBlocks) ∧
    (newBlocks.length ≤ BlockChain.length →
      replaceChain BlockChain newBlocks = BlockChain) := by
  unfold replaceChain
  constructor
  · intro h; simp [h]
  · intro h; simp [Nat.not_lt.mpr h]

/-- Counterexample to C8 as stated: at difficulty `2^62`, which is not negative, on the hash
`000`, which is shorter, `isHashValid` does not return false: `strings.Repeat` cannot
allocate its output and the call panics, even with all the memory a 64-bit runtime can
grant. -/
theorem isHashValid_huge_difficulty_panics :
    (0 : Int) ≤ 4611686018427387904 ∧ ("000".length : Int) < 4611686018427387904 ∧
      isHashValid maxAlloc "000" 4611686018427387904 =
        Run.panic "runtime error: makeslice: len out of range" ∧
      ¬ ∃ b, isHashValid maxAlloc "000" 4611686018427387904 = Run.done b := by
  have h : isHashValid maxAlloc "000" 4611686018427387904 =
      Run.panic "runtime error: makeslice: len out of range" := by decide
  refine ⟨by decide, by decide, h, ?_⟩
  rintro ⟨b, hb⟩
  rw [h] at hb
  cases hb

/-- C8, amended: for a difficulty (a Go `int`) that is not negative and not larger than
what the runtime can allocate, `isHashValid hash difficulty` returns, and it returns true
exactly when the hash has at least `difficulty` characters and each of its first
`difficulty` characters is `0`; so it is true for difficulty 0 and false for a hash shorter
than the difficulty.  For a difficulty larger than what can be allocated it panics. -/
theorem isHashValid_iff (mem : Nat) (hash : String) (d : Int) (hd : 0 ≤ d)
    (hint : d ≤ maxInt) :
    (d ≤ (mem : Int) →
      ∃ b, isHashValid mem hash d = Run.done b ∧
        (b = true ↔
          (d.toNat ≤ hash.length ∧ ∀ i : Nat, i < d.toNat → hash.data[i]? = some '0')) ∧
        (d = 0 → b = true) ∧ ((hash.length : Int) < d → b = false)) ∧
    ((mem : Int) < d → ∃ msg, isHashValid mem hash d = Run.panic msg) := by
  constructor
  · intro hmem
    refine ⟨HasPrefix hash (repeatString "0" d.toNat), isHashValid_eq mem hash d hd hint hmem,
      HasPrefix_zeros hash d.toNat, ?_, ?_⟩
    · intro h0
      subst h0
      rw [HasPrefix_zeros]
      simp
    · intro hlt
      rw [← Bool.not_eq_true, HasPrefix_zeros]
      rintro ⟨h1, _⟩
      omega
  · intro hmem
    exact isHashValid_panic mem hash d (Or.inr hmem)

/-- Witness of C8, amended: difficulty 3 on the hash `0001u423`. -/
theorem isHashValid_iff_witness :
    (0 : Int) ≤ 3 ∧ (3 : Int) ≤ maxInt ∧
    (((3 : Int) ≤ (maxAlloc : Int) →
      ∃ b, isHashValid maxAlloc "0001u423" 3 = Run.done b ∧
        (b = true ↔
          ((3 : Int).toNat ≤ "0001u423".length ∧
            ∀ i : Nat, i < (3 : Int).toNat → "0001u423".data[i]? = some '0')) ∧
        ((3 : Int) = 0 → b = true) ∧ (("0001u423".length : Int) < 3 → b = false)) ∧
    ((maxAlloc : Int) < 3 → ∃ msg, isHashValid maxAlloc "0001u423" 3 = Run.panic msg)) :=
  ⟨by decide, by decide, isHashValid_iff maxAlloc "0001u423" 3 (by decide) (by decide)⟩

/-- C9: two blocks that agree on four of the five hashed fields (Index, Timestamp, Data,
PrevHash, Nonce) and differ in the fifth have different records, and so different digests
when SHA-256 is injective. -/
theorem calculateHash_ne_of_differInOneField (sha : String → String)
    (hinj : Function.Injective sha) (B B2 : Block) (h : differInOneField B B2) :
    record B ≠ record B2 ∧ calculateHash sha B ≠ calculateHash sha B2 := by
  have hr := record_ne_of_differInOneField B B2 h
  exact ⟨hr, fun e => hr (hinj e)⟩

/-- Witness of C9: with the identity as hash, payloads 2 and 12 in otherwise equal blocks
give different records and digests. -/
theorem calculateHash_ne_of_differInOneField_witness :
    record ⟨1, "t", 2, "", "", 3, "0"⟩ ≠ record ⟨1, "t", 12, "", "", 3, "0"⟩ ∧
      calculateHash id ⟨1, "t", 2, "", "", 3, "0"⟩ ≠
        calculateHash id ⟨1, "t", 12, "", "", 3, "0"⟩ :=
  calculateHash_ne_of_differInOneField id Function.injective_id
    ⟨1, "t", 2, "", "", 3, "0"⟩ ⟨1, "t", 12, "", "", 3, "0"⟩
    (Or.inr (Or.inr (Or.inl (by decide))))

/-- C10: the record has no separators, so the digest does not bind the payload: for every
hash function there are a predecessor `P` and blocks `B`, `B2` that differ in Data and in
Timestamp and agree on every other field (Timestamp `t1` with Data 2, Timestamp `t` with
Data 12), with the same digest, both accepted by `isBlockValid` on top of `P`. -/
theorem calculateHash_payload_not_bound (sha : String → String) :
    ∃ P B B2 : Block,
      B.Timestamp = "t1" ∧ B.Data = 2 ∧ B2.Timestamp = "t" ∧ B2.Data = 12 ∧
      B.Timestamp ≠ B2.Timestamp ∧ B.Data ≠ B2.Data ∧
      B.Index = B2.Index ∧ B.PrevHash = B2.PrevHash ∧ B.Nonce = B2.Nonce ∧
      B.Hash = B2.Hash ∧ B.Difficulty = B2.Difficulty ∧
      calculateHash sha B = calculateHash sha B2 ∧
      isBlockValid sha B P = true ∧ isBlockValid sha B2 P = true := by
  have e : record ⟨1, "t1", 2, "", "", 3, "0"⟩ = "1t120" := by decide
  have e2 : record ⟨1, "t", 12, "", "", 3, "0"⟩ = "1t120" := by decide
  refine ⟨genesisBlock "t0", ⟨1, "t1", 2, sha "1t120", "", 3, "0"⟩,
    ⟨1, "t", 12, sha "1t120", "", 3, "0"⟩,
    rfl, rfl, rfl, rfl,
    (by show "t1" ≠ "t"; decide), (by show (2 : Int) ≠ 12; decide),
    rfl, rfl, rfl, rfl, rfl, ?_, ?_, ?_⟩
  · show sha (record ⟨1, "t1", 2, "", "", 3, "0"⟩) =
      sha (record ⟨1, "t", 12, "", "", 3, "0"⟩)
    rw [e, e2]
  · have hw : wrapInt 1 = 1 := by decide
    have hc : calculateHash sha ⟨1, "t1", 2, sha "1t120", "", 3, "0"⟩ = sha "1t120" := by
      show sha (record ⟨1, "t1", 2, "", "", 3, "0"⟩) = _
      rw [e]
    simp [isBlockValid, hw, hc, genesisBlock]
  · have hw : wrapInt 1 = 1 := by decide
    have hc : calculateHash sha ⟨1, "t", 12, sha "1t120", "", 3, "0"⟩ = sha "1t120" := by
      show sha (record ⟨1, "t", 12, "", "", 3, "0"⟩) = _
      rw [e2]
    simp [isBlockValid, hw, hc, genesisBlock]

/-- C4, on the code: the invariant is broken by two sessions racing on one tip.  Started
on the genesis-only chain with two sessions whose minings return `A` and `B`, the schedule
`raceSchedule` (both mine, both pass line 164, then each runs lines 165-166) leaves the
chain `[genesis, A, B]`: the block `B` at position 2 has index 1, has the hash of the
genesis block and not that of `A` as `PrevHash`, and `isBlockValid B A` is false. -/
theorem race_breaks_chain_invariant (sha : String → String) (mem : Nat) (t0 : String)
    (d0 : Int) (now0 : String) (fuel0 : Nat) (d1 : Int) (now1 : String) (fuel1 : Nat)
    (A B : Block)
    (hA : generateBlock sha mem (genesisBlock t0) d0 now0 fuel0 = Run.done (A, none))
    (hB : generateBlock sha mem (genesisBlock t0) d1 now1 fuel1 = Run.done (B, none)) :
    runSchedule sha mem (startServer t0 2) (raceSchedule d0 now0 fuel0 d1 now1 fuel1) =
        Run.done
          { BlockChain := [genesisBlock t0, A, B]
            sessions := [Session.idle, Session.idle] } ∧
      B.Index = 1 ∧ B.Index ≠ 2 ∧ B.PrevHash = (genesisBlock t0).Hash ∧
      B.PrevHash ≠ A.Hash ∧ isBlockValid sha B A = false := by
  have hvA := isBlockValid_of_generateBlock sha mem _ _ _ _ _ _ hA
  have hvB := isBlockValid_of_generateBlock sha mem _ _ _ _ _ _ hB
  have hst := isBlockValid_stale sha mem _ _ _ _ _ _ _ _ _ _ _ hA hB
  obtain ⟨_, _, a2, _, _, _, _, a7⟩ := generateBlock_done sha mem _ _ _ _ _ _ hA
  obtain ⟨_, _, _, b3, _, _, b6, _⟩ := generateBlock_done sha mem _ _ _ _ _ _ hB
  have hidx : B.Index = 1 := by
    rw [b3]
    show wrapInt ((0 : Int) + 1) = 1
    decide
  have hAne : A.Hash ≠ "" := by
    rw [a7] at a2
    have hp := HasPrefix_of_isHashValid mem _ a2
    intro e
    rw [e] at hp
    exact absurd hp (by decide)
  have hprev : B.PrevHash = "" := b6
  refine ⟨?_, hidx, by rw [hidx]; decide, hprev, by rw [hprev]; exact fun e => hAne e.symm,
    hst⟩
  simp [runSchedule, raceSchedule, stepSession, startServer, lastBlock, hA, hB, hvA, hvB,
    replaceChain]

/-- Witness of C4, on the code: with the stand-in hash, payloads 42 and 7 submitted by two
sessions on the genesis-only chain. -/
theorem race_breaks_chain_invariant_witness :
    generateBlock toyHash maxAlloc (genesisBlock "t") 42 "u" 10 = Run.done (minedBlock, none) ∧
    generateBlock toyHash maxAlloc (genesisBlock "t") 7 "v" 10 = Run.done (rivalBlock, none) ∧
    (runSchedule toyHash maxAlloc (startServer "t" 2) (raceSchedule 42 "u" 10 7 "v" 10) =
        Run.done
          { BlockChain := [genesisBlock "t", minedBlock, rivalBlock]
            sessions := [Session.idle, Session.idle] } ∧
      rivalBlock.Index = 1 ∧ rivalBlock.Index ≠ 2 ∧
      rivalBlock.PrevHash = (genesisBlock "t").Hash ∧
      rivalBlock.PrevHash ≠ minedBlock.Hash ∧
      isBlockValid toyHash rivalBlock minedBlock = false) :=
  ⟨by decide, by decide,
   race_breaks_chain_invariant toyHash maxAlloc "t" 42 "u" 10 7 "v" 10 minedBlock rivalBlock
     (by decide) (by decide)⟩

/-- C6: only one candidate wins per tip.  When a first candidate and any further
candidates, all mined by `generateBlock` on the tip `T` of the live chain, are committed
one at a time, the first is accepted and every later one, repeated or not, is rejected by
`isBlockValid` against the new tip and leaves the chain unchanged; the final chain is the
initial one with the first candidate appended, of length `initialLength + 1`. -/
theorem one_winner_per_tip (sha : String → String) (mem : Nat) (chain : List Block) (T : Block)
    (hT : lastBlock chain = Run.done T) (b : Block) (rest : List Block)
    (hmined : ∀ c ∈ b :: rest, ∃ (d : Int) (now : String) (fuel : Nat) (err : Option String),
      generateBlock sha mem T d now fuel = Run.done (c, err)) :
    commitAll sha chain (b :: rest) =
        Run.done (chain ++ [b], true :: List.replicate rest.length false) ∧
      (chain ++ [b]).length = chain.length + 1 ∧
      (∀ c ∈ rest, isBlockValid sha c b = false ∧
        commit sha (chain ++ [b]) c = Run.done (chain ++ [b], false)) := by
  obtain ⟨d, now, fuel, err, hb⟩ := hmined b (List.mem_cons_self _ _)
  have hvb := isBlockValid_of_generateBlock sha mem T d now fuel b err hb
  have hstale : ∀ c ∈ rest, isBlockValid sha c b = false := by
    intro c hc
    obtain ⟨d2, now2, fuel2, err2, hc2⟩ := hmined c (List.mem_cons_of_mem _ hc)
    exact isBlockValid_stale sha mem T d d2 now now2 fuel fuel2 b c err err2 hb hc2
  have hlast := lastBlock_append_singleton chain b
  have hrest : ∀ l : List Block, (∀ c ∈ l, isBlockValid sha c b = false) →
      commitAll sha (chain ++ [b]) l =
        Run.done (chain ++ [b], List.replicate l.length false) := by
    intro l
    induction l with
    | nil => intro _; rfl
    | cons c l ih =>
      intro hl
      have hc := hl c (List.mem_cons_self _ _)
      rw [commitAll_cons sha _ b c l hlast]
      simp only [hc, Bool.false_eq_true, if_false]
      rw [ih (fun x hx => hl x (List.mem_cons_of_mem _ hx))]
      rfl
  refine ⟨?_, by simp, ?_⟩
  · rw [commitAll_cons sha chain T b rest hT]
    simp only [hvb, if_true]
    rw [hrest rest hstale]
  · intro c hc
    refine ⟨hstale c hc, ?_⟩
    rw [commit_eq sha _ b c hlast]
    simp [hstale c hc]

/-- Witness of C6: on the genesis-only chain, with the stand-in hash, the block mined for
payload 42 wins and the block mined for payload 7 is rejected twice. -/
theorem one_winner_per_tip_witness :
    lastBlock [genesisBlock "t"] = Run.done (genesisBlock "t") ∧
      generateBlock toyHash maxAlloc (genesisBlock "t") 42 "u" 10 = Run.done (minedBlock, none) ∧
      generateBlock toyHash maxAlloc (genesisBlock "t") 7 "v" 10 = Run.done (rivalBlock, none) ∧
      (commitAll toyHash [genesisBlock "t"] (minedBlock :: [rivalBlock, rivalBlock]) =
          Run.done ([genesisBlock "t"] ++ [minedBlock],
            true :: List.replicate [rivalBlock, rivalBlock].length false) ∧
        ([genesisBlock "t"] ++ [minedBlock]).length = [genesisBlock "t"].length + 1 ∧
        (∀ c ∈ [rivalBlock, rivalBlock], isBlockValid toyHash c minedBlock = false ∧
          commit toyHash ([genesisBlock "t"] ++ [minedBlock]) c =
            Run.done ([genesisBlock "t"] ++ [minedBlock], false))) :=
  ⟨by decide, by decide, by decide,
   one_winner_per_tip toyHash maxAlloc [genesisBlock "t"] (genesisBlock "t") (by decide) minedBlock
     [rivalBlock, rivalBlock]
     (by
       intro c hc
       simp only [List.mem_cons, List.mem_singleton, List.not_mem_nil, or_false, or_self]
         at hc
       rcases hc with rfl | rfl
       · exact ⟨42, "u", 10, none, by decide⟩
       · exact ⟨7, "v", 10, none, by decide⟩)⟩

/-- C7: on a non-empty live chain with tip `T`, a submission of payload `d` whose mining
terminates is accepted: the mined block `B` has `B.Index = T.Index + 1` (Go addition),
`B.Data = d`, `B.PrevHash = T.Hash`, `B.Difficulty = 3` and a hash starting with `000`,
`isBlockValid B T` is true, and the live chain afterwards is the old chain with `B`
appended, one block longer.  On the genesis-only chain the block has index 1 and empty
`PrevHash`, and the chain afterwards has length 2. -/
theorem submit_accepted (sha : String → String) (mem : Nat) (chain : List Block) (T : Block)
    (d : Int)
    (now : String) (fuel : Nat) (B : Block) (err : Option String)
    (hT : lastBlock chain = Run.done T)
    (hB : generateBlock sha mem T d now fuel = Run.done (B, err)) :
    err = none ∧ B.Index = wrapInt (T.Index + 1) ∧
      (minInt ≤ T.Index → T.Index < maxInt → B.Index = T.Index + 1) ∧
      B.Data = d ∧ B.PrevHash = T.Hash ∧ B.Difficulty = 3 ∧
      calculateHash sha B = B.Hash ∧ HasPrefix B.Hash "000" = true ∧
      isBlockValid sha B T = true ∧
      submit sha mem chain d now fuel = Run.done (chain ++ [B], true) ∧
      (chain ++ [B]).length = chain.length + 1 ∧
      (∀ t0 : String, chain = [genesisBlock t0] →
        B.Index = 1 ∧ B.PrevHash = "" ∧ (chain ++ [B]).length = 2) := by
  obtain ⟨g0, g1, g2, g3, _, g5, g6, g7⟩ := generateBlock_done sha mem T d now fuel B err hB
  have hv := isBlockValid_of_generateBlock sha mem T d now fuel B err hB
  have hp : HasPrefix B.Hash "000" = true := by
    rw [g7] at g2
    exact HasPrefix_of_isHashValid mem _ g2
  subst g0
  refine ⟨rfl, g3, ?_, g5, g6, g7, g1, hp, hv, ?_, by simp, ?_⟩
  · intro h1 h2
    rw [g3]
    apply wrapInt_of_inRange
    · unfold minInt at h1 ⊢; omega
    · unfold maxInt at h2 ⊢; omega
  · unfold submit handleConn
    rw [hT]
    simp only
    rw [hB]
    simp only
    rw [commit_eq sha chain T B hT]
    simp [hv]
  · intro t0 hc
    subst hc
    have hT2 : T = genesisBlock t0 := by
      have := (lastBlock_done_iff _ _).mp hT
      simpa using this.symm
    subst hT2
    refine ⟨?_, ?_, rfl⟩
    · rw [g3]
      show wrapInt ((0 : Int) + 1) = 1
      decide
    · rw [g6]; rfl

/-- Witness of C7: the genesis-only chain and payload 42, with the stand-in hash. -/
theorem submit_accepted_witness :
    lastBlock [genesisBlock "t"] = Run.done (genesisBlock "t") ∧
      generateBlock toyHash maxAlloc (genesisBlock "t") 42 "u" 10 = Run.done (minedBlock, none) ∧
      ((none : Option String) = none ∧
        minedBlock.Index = wrapInt ((genesisBlock "t").Index + 1) ∧
        (minInt ≤ (genesisBlock "t").Index → (genesisBlock "t").Index < maxInt →
          minedBlock.Index = (genesisBlock "t").Index + 1) ∧
        minedBlock.Data = 42 ∧ minedBlock.PrevHash = (genesisBlock "t").Hash ∧
        minedBlock.Difficulty = 3 ∧
        calculateHash toyHash minedBlock = minedBlock.Hash ∧
        HasPrefix minedBlock.Hash "000" = true ∧
        isBlockValid toyHash minedBlock (genesisBlock "t") = true ∧
        submit toyHash maxAlloc [genesisBlock "t"] 42 "u" 10 =
          Run.done ([genesisBlock "t"] ++ [minedBlock], true) ∧
        ([genesisBlock "t"] ++ [minedBlock]).length = [genesisBlock "t"].length + 1 ∧
        (∀ t0 : String, [genesisBlock "t"] = [genesisBlock t0] →
          minedBlock.Index = 1 ∧ minedBlock.PrevHash = "" ∧
            ([genesisBlock "t"] ++ [minedBlock]).length = 2)) :=
  ⟨by decide, by decide,
   submit_accepted toyHash maxAlloc [genesisBlock "t"] (genesisBlock "t") 42 "u" 10 minedBlock none
     (by decide) (by decide)⟩

end Blockchain
